import Mathlib

/-
Verification of the batched transactional execution engine of `sqlx_utils`
(`BatchOperator`, the four `TransactionRepository` strategies, and the
`SaveRepository` / `DeleteRepository` capability layer).

The Rust code is embedded shallowly.  Database effects are modelled by an
oracle (`PoolModel`) deciding which `begin` / `commit` / per-item query
operations succeed, and each embedded operation returns its result together
with an explicit event trace.  Trace conventions, matching the
`Open → {Committed, RolledBack}` state machine of a `sqlx` transaction:
a `commit` event is recorded when a transaction commits successfully; a
`rollback` event is recorded when a transaction reaches the rolled-back
terminal state, whether by an explicit `rollback()` call, by dropping the
handle while the transaction is open (`sqlx`'s `Drop` rolls back), or by a
failed `commit()` attempt (which consumes the handle without committing).
-/

set_option linter.unusedVariables false

namespace SqlxUtils

/-- Events visible on the database connection during a `BatchOperator` call.
`beginTx` is `pool.begin()`, `exec t` is `query(&t).execute(&mut *tx)`,
`commit` is a successful `tx.commit()`, `rollback` is the transaction
reaching its rolled-back terminal state. -/
inductive Ev (T : Type) where
  | beginTx
  | exec (t : T)
  | commit
  | rollback
deriving DecidableEq

/-- Oracle for the fallible database operations used by `BatchOperator`:
whether the i-th `pool.begin()` of the call succeeds, whether the commit of
the i-th begun transaction succeeds, and whether executing the query built
from a given item succeeds. -/
structure PoolModel (T : Type) where
  beginOk : Nat → Bool
  commitOk : Nat → Bool
  queryOk : T → Bool

/-- State threaded through a `BatchOperator` call: how many transactions have
been begun so far, and the events issued so far. -/
structure DbState (T : Type) where
  txBegun : Nat
  trace : List (Ev T)
deriving DecidableEq

/-- Errors surfaced by the embedded `BatchOperator::execute_query`: a failed
`pool.begin()`, a failed per-item query (carrying the item), or a failed
`tx.commit()`. -/
inductive DbErr (T : Type) where
  | beginFailed
  | queryFailed (t : T)
  | commitFailed
deriving DecidableEq

variable {T : Type}

/-- The `for item in items.drain(..)` loop of `execute_query_internal`: run
the per-item query for each buffered item in order, stopping at the first
failure. -/
def runItems (pool : PoolModel T) : List T → DbState T → Except (DbErr T) Unit × DbState T
  | [], s => (Except.ok (), s)
  | t :: ts, s =>
    let s2 : DbState T := ⟨s.txBegun, s.trace ++ [Ev.exec t]⟩
    if pool.queryOk t then runItems pool ts s2
    else (Except.error (DbErr.queryFailed t), s2)

/-- `BatchOperator::execute_query_internal`: a no-op on an empty buffer;
otherwise begin one transaction, execute the per-item query for every
buffered item sequentially inside it, and commit.  Any error while the
transaction is open propagates via `?`, dropping the handle, which rolls the
transaction back. -/
def execute_query_internal (pool : PoolModel T) (items : List T) (s : DbState T) :
    Except (DbErr T) Unit × DbState T :=
  if items.isEmpty then (Except.ok (), s)
  else if pool.beginOk s.txBegun then
    match runItems pool items ⟨s.txBegun + 1, s.trace ++ [Ev.beginTx]⟩ with
    | (Except.ok _, s2) =>
        if pool.commitOk s.txBegun then (Except.ok (), ⟨s2.txBegun, s2.trace ++ [Ev.commit]⟩)
        else (Except.error DbErr.commitFailed, ⟨s2.txBegun, s2.trace ++ [Ev.rollback]⟩)
    | (Except.error e, s2) => (Except.error e, ⟨s2.txBegun, s2.trace ++ [Ev.rollback]⟩)
  else (Except.error DbErr.beginFailed, s)

/-- The buffered accumulation loop shared by `execute_query` and
`execute_batch`: push each item, flush a group whenever the buffer length
reaches exactly `N`, and emit the remaining non-empty buffer as a trailing
group after the input is exhausted.  Returns the sequence of flushed groups. -/
def chunksGo (N : Nat) (buf : List T) : List T → List (List T)
  | [] => if buf.isEmpty then [] else [buf]
  | x :: xs =>
    let buf2 := buf ++ [x]
    if buf2.length = N then buf2 :: chunksGo N [] xs
    else chunksGo N buf2 xs

/-- The groups produced by the `BatchOperator` buffering loop on input `l`. -/
def chunks (N : Nat) (l : List T) : List (List T) := chunksGo N [] l

/-- Sequential processing of already-formed groups, each through
`execute_query_internal`; stops at the first failing group and returns the
groups that were never processed. -/
def processChunks (pool : PoolModel T) :
    List (List T) → DbState T → Except (DbErr T) Unit × DbState T × List (List T)
  | [], s => (Except.ok (), s, [])
  | c :: cs, s =>
    match execute_query_internal pool c s with
    | (Except.ok _, s2) => processChunks pool cs s2
    | (Except.error e, s2) => (Except.error e, s2, cs)

/-- The loop of `BatchOperator::execute_query`: push each input item onto the
buffer, flush through `execute_query_internal` when the buffer length equals
`N` (returning the error immediately on failure, leaving the rest of the
input unconsumed), and flush the remaining buffer after exhaustion.  The last
component of the result is the part of the input that was never pulled from
the iterator. -/
def execute_query_go (pool : PoolModel T) (N : Nat) (buf : List T) :
    List T → DbState T → Except (DbErr T) Unit × DbState T × List T
  | [], s =>
    match execute_query_internal pool buf s with
    | (Except.ok _, s2) => (Except.ok (), s2, [])
    | (Except.error e, s2) => (Except.error e, s2, [])
  | x :: xs, s =>
    let buf2 := buf ++ [x]
    if buf2.length = N then
      match execute_query_internal pool buf2 s with
      | (Except.ok _, s2) => execute_query_go pool N [] xs s2
      | (Except.error e, s2) => (Except.error e, s2, xs)
    else execute_query_go pool N buf2 xs s

/-- `BatchOperator::<T, N>::execute_query(iter, pool, query)`. -/
def execute_query (pool : PoolModel T) (N : Nat) (l : List T) :
    Except (DbErr T) Unit × DbState T × List T :=
  execute_query_go pool N [] l ⟨0, []⟩

/-- The database events of one committed batch: begin, the per-item queries
in order, commit. -/
def evBatch (c : List T) : List (Ev T) := Ev.beginTx :: c.map Ev.exec ++ [Ev.commit]

theorem chunksGo_flatten (N : Nat) :
    ∀ (xs buf : List T), (chunksGo N buf xs).flatten = buf ++ xs := by
  intro xs
  induction xs with
  | nil => intro buf; cases buf <;> simp [chunksGo]
  | cons x xs ih =>
    intro buf
    simp only [chunksGo]
    by_cases hN : (buf ++ [x]).length = N
    · rw [if_pos hN]; simp [ih]
    · rw [if_neg hN]; simp [ih]

theorem chunksGo_ne_nil (N : Nat) :
    ∀ (xs buf : List T), ∀ c ∈ chunksGo N buf xs, c ≠ [] := by
  intro xs
  induction xs with
  | nil =>
    intro buf c hc
    cases buf with
    | nil => simp [chunksGo] at hc
    | cons b bs =>
      simp [chunksGo] at hc
      simp [hc]
  | cons x xs ih =>
    intro buf c hc
    simp only [chunksGo] at hc
    by_cases hN : (buf ++ [x]).length = N
    · rw [if_pos hN] at hc
      rcases List.mem_cons.mp hc with hc | hc
      · simp [hc]
      · exact ih [] c hc
    · rw [if_neg hN] at hc
      exact ih (buf ++ [x]) c hc

theorem chunksGo_dropLast_length (N : Nat) :
    ∀ (xs buf : List T), ∀ c ∈ (chunksGo N buf xs).dropLast, c.length = N := by
  intro xs
  induction xs with
  | nil =>
    intro buf c hc
    cases buf <;> simp [chunksGo] at hc
  | cons x xs ih =>
    intro buf c hc
    simp only [chunksGo] at hc
    by_cases hN : (buf ++ [x]).length = N
    · rw [if_pos hN] at hc
      rcases h : chunksGo N [] xs with _ | ⟨d, ds⟩
      · rw [h] at hc; simp at hc
      · rw [h] at hc
        have hd : ((buf ++ [x]) :: d :: ds).dropLast = (buf ++ [x]) :: (d :: ds).dropLast := rfl
        rw [hd] at hc
        rcases List.mem_cons.mp hc with hc | hc
        · rw [hc]; exact hN
        · have h2 := ih [] c
          rw [h] at h2
          exact h2 hc
    · rw [if_neg hN] at hc
      exact ih (buf ++ [x]) c hc

theorem chunksGo_getLast_length (N : Nat) :
    ∀ (xs buf : List T), (buf.length < N ∨ N = 0) → buf ++ xs ≠ [] →
    ∃ c, (chunksGo N buf xs).getLast? = some c ∧
      c.length = (if (buf.length + xs.length) % N = 0 then N else (buf.length + xs.length) % N) := by
  intro xs
  induction xs with
  | nil =>
    intro buf hlt hne
    cases buf with
    | nil => simp at hne
    | cons b bs =>
      refine ⟨b :: bs, by simp [chunksGo], ?_⟩
      have hmod : ((b :: bs).length + ([] : List T).length) % N = (b :: bs).length := by
        rcases hlt with hlt | h0
        · rw [List.length_nil, Nat.add_zero, Nat.mod_eq_of_lt hlt]
        · subst h0; rw [List.length_nil, Nat.add_zero, Nat.mod_zero]
      rw [hmod, if_neg (by simp)]
  | cons x xs ih =>
    intro buf hlt hne
    simp only [chunksGo]
    by_cases hN : (buf ++ [x]).length = N
    · rw [if_pos hN]
      have hb : buf.length + 1 = N := by simpa using hN
      have hNpos : 0 < N := by omega
      cases xs with
      | nil =>
        refine ⟨buf ++ [x], by simp [chunksGo], ?_⟩
        have hcond : (buf.length + (x :: ([] : List T)).length) % N = 0 := by
          have h3 : buf.length + (x :: ([] : List T)).length = N := by
            simpa using hN
          rw [h3, Nat.mod_self]
        rw [if_pos hcond]
        exact hN
      | cons y ys =>
        rcases ih [] (Or.inl hNpos) (by simp) with ⟨c, hc1, hc2⟩
        simp only [List.length_nil, Nat.zero_add] at hc2
        rcases h : chunksGo N [] (y :: ys) with _ | ⟨d, ds⟩
        · rw [h] at hc1; simp at hc1
        · rw [h] at hc1
          refine ⟨c, ?_, ?_⟩
          · rw [List.getLast?_cons_cons]; exact hc1
          · have hmod : (buf.length + (x :: y :: ys).length) % N = (y :: ys).length % N := by
              have h3 : buf.length + (x :: y :: ys).length = N + (y :: ys).length := by
                simp only [List.length_cons]; omega
              rw [h3, Nat.add_mod_left]
            rw [hmod]
            exact hc2
    · rw [if_neg hN]
      have hlt2 : (buf ++ [x]).length < N ∨ N = 0 := by
        rcases hlt with hlt | h0
        · left
          simp only [List.length_append, List.length_cons, List.length_nil]
          have h4 : (buf ++ [x]).length = buf.length + 1 := by simp
          rw [h4] at hN
          omega
        · right; exact h0
      rcases ih (buf ++ [x]) hlt2 (by simp) with ⟨c, hc1, hc2⟩
      refine ⟨c, hc1, ?_⟩
      have harith : (buf ++ [x]).length + xs.length = buf.length + (x :: xs).length := by
        simp only [List.length_append, List.length_cons, List.length_nil]
        omega
      rw [hc2, harith]

theorem execute_query_go_spec (pool : PoolModel T) (N : Nat) :
    ∀ (xs buf : List T) (s : DbState T),
    execute_query_go pool N buf xs s =
      ((processChunks pool (chunksGo N buf xs) s).1,
       (processChunks pool (chunksGo N buf xs) s).2.1,
       (processChunks pool (chunksGo N buf xs) s).2.2.flatten) := by
  intro xs
  induction xs with
  | nil =>
    intro buf s
    cases buf with
    | nil =>
      simp [execute_query_go, chunksGo, processChunks, execute_query_internal]
    | cons b bs =>
      rcases hI : execute_query_internal pool (b :: bs) s with ⟨r, s2⟩
      cases r <;> simp [execute_query_go, chunksGo, processChunks, hI]
  | cons x xs ih =>
    intro buf s
    simp only [execute_query_go, chunksGo]
    by_cases hN : (buf ++ [x]).length = N
    · rw [if_pos hN]
      rw [if_pos hN]
      rcases hI : execute_query_internal pool (buf ++ [x]) s with ⟨r, s2⟩
      cases r with
      | ok v => simp [processChunks, hI, ih]
      | error e => simp [processChunks, hI, chunksGo_flatten]
    · rw [if_neg hN]
      rw [if_neg hN]
      exact ih (buf ++ [x]) s

theorem runItems_ok (pool : PoolModel T) :
    ∀ (items : List T) (s : DbState T), (∀ t ∈ items, pool.queryOk t = true) →
    runItems pool items s = (Except.ok (), ⟨s.txBegun, s.trace ++ items.map Ev.exec⟩) := by
  intro items
  induction items with
  | nil => intro s h; simp [runItems]
  | cons t ts ih =>
    intro s h
    have ht : pool.queryOk t = true := h t (by simp)
    have h2 : ∀ u ∈ ts, pool.queryOk u = true := fun u hu => h u (by simp [hu])
    rw [runItems]
    simp only [ht, if_true]
    rw [ih _ h2]
    simp

theorem runItems_fail (pool : PoolModel T) :
    ∀ (pre : List T) (t : T) (post : List T) (s : DbState T),
    (∀ u ∈ pre, pool.queryOk u = true) → pool.queryOk t = false →
    runItems pool (pre ++ t :: post) s =
      (Except.error (DbErr.queryFailed t),
       ⟨s.txBegun, s.trace ++ (pre ++ [t]).map Ev.exec⟩) := by
  intro pre
  induction pre with
  | nil =>
    intro t post s hpre ht
    simp [runItems, ht]
  | cons u us ih =>
    intro t post s hpre ht
    have hu : pool.queryOk u = true := hpre u (by simp)
    have h2 : ∀ v ∈ us, pool.queryOk v = true := fun v hv => hpre v (by simp [hv])
    rw [List.cons_append, runItems]
    simp only [hu, if_true]
    rw [ih t post _ h2 ht]
    simp

theorem execute_query_internal_ok (pool : PoolModel T) (c : List T) (s : DbState T)
    (hne : c ≠ []) (hb : pool.beginOk s.txBegun = true)
    (hcm : pool.commitOk s.txBegun = true)
    (hq : ∀ t ∈ c, pool.queryOk t = true) :
    execute_query_internal pool c s =
      (Except.ok (), ⟨s.txBegun + 1, s.trace ++ evBatch c⟩) := by
  have hemp : c.isEmpty = false := by cases c <;> simp_all
  have hr := runItems_ok pool c (⟨s.txBegun + 1, s.trace ++ [Ev.beginTx]⟩ : DbState T) hq
  simp [execute_query_internal, hemp, hb, hr, hcm, evBatch]

theorem execute_query_internal_fail (pool : PoolModel T) (pre : List T) (t : T) (post : List T)
    (s : DbState T) (hb : pool.beginOk s.txBegun = true)
    (hpre : ∀ u ∈ pre, pool.queryOk u = true) (ht : pool.queryOk t = false) :
    execute_query_internal pool (pre ++ t :: post) s =
      (Except.error (DbErr.queryFailed t),
       ⟨s.txBegun + 1, s.trace ++ (Ev.beginTx :: (pre ++ [t]).map Ev.exec ++ [Ev.rollback])⟩) := by
  have hemp : (pre ++ t :: post).isEmpty = false := by cases pre <;> simp
  have hr := runItems_fail pool pre t post (⟨s.txBegun + 1, s.trace ++ [Ev.beginTx]⟩ : DbState T) hpre ht
  simp [execute_query_internal, hemp, hb, hr]

theorem processChunks_ok (pool : PoolModel T)
    (hb : ∀ i, pool.beginOk i = true) (hcm : ∀ i, pool.commitOk i = true) :
    ∀ (cs : List (List T)) (s : DbState T),
    (∀ c ∈ cs, c ≠ []) → (∀ c ∈ cs, ∀ t ∈ c, pool.queryOk t = true) →
    processChunks pool cs s =
      (Except.ok (), ⟨s.txBegun + cs.length, s.trace ++ cs.flatMap evBatch⟩, []) := by
  intro cs
  induction cs with
  | nil => intro s h1 h2; simp [processChunks]
  | cons c cs ih =>
    intro s h1 h2
    have e1 := execute_query_internal_ok pool c s (h1 c (by simp)) (hb _) (hcm _) (h2 c (by simp))
    have e2 := ih (⟨s.txBegun + 1, s.trace ++ evBatch c⟩ : DbState T)
      (fun d hd => h1 d (by simp [hd])) (fun d hd => h2 d (by simp [hd]))
    rw [processChunks, e1]
    simp [e2, List.append_assoc]
    omega

theorem processChunks_fail (pool : PoolModel T)
    (hb : ∀ i, pool.beginOk i = true) (hcm : ∀ i, pool.commitOk i = true) :
    ∀ (cs1 : List (List T)) (pre : List T) (t : T) (post : List T) (cs2 : List (List T))
      (s : DbState T),
    (∀ c ∈ cs1, c ≠ []) → (∀ c ∈ cs1, ∀ u ∈ c, pool.queryOk u = true) →
    (∀ u ∈ pre, pool.queryOk u = true) → pool.queryOk t = false →
    processChunks pool (cs1 ++ (pre ++ t :: post) :: cs2) s =
      (Except.error (DbErr.queryFailed t),
       ⟨s.txBegun + cs1.length + 1,
        s.trace ++ cs1.flatMap evBatch ++ (Ev.beginTx :: (pre ++ [t]).map Ev.exec ++ [Ev.rollback])⟩,
       cs2) := by
  intro cs1
  induction cs1 with
  | nil =>
    intro pre t post cs2 s h1 h2 hpre ht
    rw [List.nil_append, processChunks]
    rw [execute_query_internal_fail pool pre t post s (hb _) hpre ht]
    simp
  | cons c cs ih =>
    intro pre t post cs2 s h1 h2 hpre ht
    have e1 := execute_query_internal_ok pool c s (h1 c (by simp)) (hb _) (hcm _) (h2 c (by simp))
    have e2 := ih pre t post cs2 (⟨s.txBegun + 1, s.trace ++ evBatch c⟩ : DbState T)
      (fun d hd => h1 d (by simp [hd])) (fun d hd => h2 d (by simp [hd])) hpre ht
    rw [List.cons_append, processChunks, e1]
    simp [e2, List.append_assoc]
    omega

theorem chunksGo_zero : ∀ (xs buf : List T), buf ++ xs ≠ [] → chunksGo 0 buf xs = [buf ++ xs] := by
  intro xs
  induction xs with
  | nil =>
    intro buf h
    cases buf with
    | nil => simp at h
    | cons b bs => simp [chunksGo]
  | cons x xs ih =>
    intro buf h
    simp only [chunksGo]
    rw [if_neg (by simp)]
    rw [ih (buf ++ [x]) (by simp)]
    simp

/-- Semantics of `futures::future::try_join_all` as used by `execute_batch`
and `transaction_concurrent`: all spawned futures are awaited; if every one
succeeds, their outputs are returned in spawn order, otherwise the error of a
failing future is returned.  Which failing future's error comes back depends
on completion timing, so the embedding determinizes it to the first failing
future in spawn order; no claim depends on the choice. -/
def try_join_all {E R : Type} : List (Except E R) → Except E (List R)
  | [] => Except.ok []
  | Except.error e :: _ => Except.error e
  | Except.ok v :: rs =>
    match try_join_all rs with
    | Except.ok vs => Except.ok (v :: vs)
    | Except.error e => Except.error e

/-- `BatchOperator::<T, N>::execute_batch(iter, worker)`: the accumulation
loop is the same buffered flush as in `execute_query` (push each item, flush
the group when the buffer length reaches exactly `N`, push the trailing
non-empty buffer after exhaustion), embedded once as `chunks`; each group is
handed to the caller-supplied worker, and all workers are awaited together
through `try_join_all`.  Returns the groups in spawn order with the result. -/
def execute_batch {E : Type} (N : Nat) (worker : List T → Except E Unit) (l : List T) :
    List (List T) × Except E Unit :=
  (chunks N l,
   match try_join_all ((chunks N l).map worker) with
   | Except.ok _ => Except.ok ()
   | Except.error e => Except.error e)

theorem execute_query_all_ok (pool : PoolModel T) (N : Nat) (l : List T)
    (hb : ∀ i, pool.beginOk i = true) (hcm : ∀ i, pool.commitOk i = true)
    (hq : ∀ t ∈ l, pool.queryOk t = true) :
    execute_query pool N l =
      (Except.ok (), ⟨(chunks N l).length, (chunks N l).flatMap evBatch⟩, []) := by
  rw [execute_query, execute_query_go_spec]
  have hq2 : ∀ c ∈ chunks N l, ∀ t ∈ c, pool.queryOk t = true := by
    intro c hc t htc
    apply hq
    have hfl : (chunks N l).flatten = l := by simpa [chunks] using chunksGo_flatten N l []
    rw [← hfl]
    exact List.mem_flatten.mpr ⟨c, hc, htc⟩
  rw [show chunksGo N ([] : List T) l = chunks N l from rfl]
  rw [processChunks_ok pool hb hcm (chunks N l) ⟨0, []⟩
    (fun c hc => chunksGo_ne_nil N l [] c hc) hq2]
  simp

/-- Claim C1: for every input of length L and batch size N, with every
database operation succeeding, `execute_query` consumes the input in order,
grouping it into consecutive batches whose concatenation is the input, every
batch but the last having exactly N items and the last having L mod N items
(or N when N divides L); the trace shows each batch executed inside exactly
one transaction, with its items run sequentially inside that transaction
before its commit. -/
theorem execute_query_batches_transactionally (pool : PoolModel T) (N : Nat) (l : List T)
    (hb : ∀ i, pool.beginOk i = true) (hcm : ∀ i, pool.commitOk i = true)
    (hq : ∀ t ∈ l, pool.queryOk t = true) :
    execute_query pool N l =
      (Except.ok (), ⟨(chunks N l).length, (chunks N l).flatMap evBatch⟩, []) ∧
    (chunks N l).flatten = l ∧
    (∀ c ∈ (chunks N l).dropLast, c.length = N) ∧
    (l ≠ [] → ∃ c, (chunks N l).getLast? = some c ∧
      c.length = (if l.length % N = 0 then N else l.length % N)) := by
  refine ⟨execute_query_all_ok pool N l hb hcm hq,
    by simpa [chunks] using chunksGo_flatten N l [], ?_, ?_⟩
  · intro c hc
    exact chunksGo_dropLast_length N l [] c hc
  · intro hne
    have hside : ([] : List T).length < N ∨ N = 0 := by
      rcases Nat.eq_zero_or_pos N with h0 | hpos
      · right; exact h0
      · left; simpa using hpos
    have h := chunksGo_getLast_length N l [] hside (by simpa using hne)
    simpa [chunks] using h

/-- Claim C2: if the per-item query fails on some item of its batch during
`execute_query` (begins and commits themselves succeeding), then that batch's
transaction is rolled back with none of its items committed, every batch
before it was committed and stays committed, the error is returned
immediately, and the items of the batches after the failing one are never
pulled from the input iterator (they are the unconsumed remainder). -/
theorem execute_query_failed_batch_rolls_back (pool : PoolModel T) (N : Nat) (l : List T)
    (hb : ∀ i, pool.beginOk i = true) (hcm : ∀ i, pool.commitOk i = true)
    (cs1 : List (List T)) (pre : List T) (t : T) (post : List T) (cs2 : List (List T))
    (hdec : chunks N l = cs1 ++ (pre ++ t :: post) :: cs2)
    (h1 : ∀ c ∈ cs1, ∀ u ∈ c, pool.queryOk u = true)
    (hpre : ∀ u ∈ pre, pool.queryOk u = true)
    (ht : pool.queryOk t = false) :
    execute_query pool N l =
      (Except.error (DbErr.queryFailed t),
       ⟨cs1.length + 1,
        cs1.flatMap evBatch ++ (Ev.beginTx :: (pre ++ [t]).map Ev.exec ++ [Ev.rollback])⟩,
       cs2.flatten) := by
  have hne : ∀ c ∈ cs1, c ≠ [] := by
    intro c hc
    apply chunksGo_ne_nil N l []
    rw [show chunksGo N ([] : List T) l = chunks N l from rfl, hdec]
    exact List.mem_append.mpr (Or.inl hc)
  rw [execute_query, execute_query_go_spec]
  rw [show chunksGo N ([] : List T) l = chunks N l from rfl, hdec]
  rw [processChunks_fail pool hb hcm cs1 pre t post cs2 ⟨0, []⟩ hne h1 hpre ht]
  simp

/-- Claim C10: with batch size N = 0 the mid-stream flush condition
`buf.len() == N` can never hold after a push, so a non-empty input forms one
single group flushed only after input exhaustion: `execute_query` runs all L
items inside one single transaction, and `execute_batch` invokes the
caller-supplied worker exactly once, on a group holding the whole input. -/
theorem batch_size_zero_single_flush (pool : PoolModel T) (l : List T) (hne : l ≠ [])
    (hb : ∀ i, pool.beginOk i = true) (hcm : ∀ i, pool.commitOk i = true)
    (hq : ∀ t ∈ l, pool.queryOk t = true) :
    chunks 0 l = [l] ∧
    execute_query pool 0 l = (Except.ok (), ⟨1, evBatch l⟩, []) ∧
    ∀ (E : Type) (worker : List T → Except E Unit), (execute_batch 0 worker l).1 = [l] := by
  have hch : chunks 0 l = [l] := by
    rw [chunks, chunksGo_zero l [] (by simpa using hne)]
    simp
  refine ⟨hch, ?_, ?_⟩
  · have h := execute_query_all_ok pool 0 l hb hcm hq
    rw [h, hch]
    simp
  · intro E worker
    rw [execute_batch, hch]

/-- A pool oracle on `Nat` items where every operation succeeds. -/
def poolAllOk : PoolModel Nat := ⟨fun _ => true, fun _ => true, fun _ => true⟩

/-- A pool oracle on `Nat` items where the per-item query fails exactly on
item 2 and every other operation succeeds. -/
def poolFailAt2 : PoolModel Nat := ⟨fun _ => true, fun _ => true, fun t => decide (t ≠ 2)⟩

theorem execute_query_batches_transactionally_witness :
    (∀ t ∈ ([0, 1, 2, 3, 4] : List Nat), poolAllOk.queryOk t = true) ∧
    (execute_query poolAllOk 2 [0, 1, 2, 3, 4] =
        (Except.ok (), ⟨(chunks 2 ([0, 1, 2, 3, 4] : List Nat)).length,
          (chunks 2 ([0, 1, 2, 3, 4] : List Nat)).flatMap evBatch⟩, []) ∧
      (chunks 2 ([0, 1, 2, 3, 4] : List Nat)).flatten = [0, 1, 2, 3, 4] ∧
      (∀ c ∈ (chunks 2 ([0, 1, 2, 3, 4] : List Nat)).dropLast, c.length = 2) ∧
      (([0, 1, 2, 3, 4] : List Nat) ≠ [] →
        ∃ c, (chunks 2 ([0, 1, 2, 3, 4] : List Nat)).getLast? = some c ∧
          c.length = (if ([0, 1, 2, 3, 4] : List Nat).length % 2 = 0 then 2
            else ([0, 1, 2, 3, 4] : List Nat).length % 2))) :=
  ⟨by decide,
   execute_query_batches_transactionally poolAllOk 2 [0, 1, 2, 3, 4]
     (fun i => rfl) (fun i => rfl) (by decide)⟩

theorem execute_query_failed_batch_rolls_back_witness :
    chunks 2 ([0, 1, 2, 3, 4] : List Nat) = [[0, 1]] ++ (([] : List Nat) ++ 2 :: [3]) :: [[4]] ∧
    execute_query poolFailAt2 2 [0, 1, 2, 3, 4] =
      (Except.error (DbErr.queryFailed 2),
       ⟨([[0, 1]] : List (List Nat)).length + 1,
        ([[0, 1]] : List (List Nat)).flatMap evBatch ++
          (Ev.beginTx :: ((([] : List Nat) ++ [2]).map Ev.exec) ++ [Ev.rollback])⟩,
       ([[4]] : List (List Nat)).flatten) :=
  ⟨by decide,
   execute_query_failed_batch_rolls_back poolFailAt2 2 [0, 1, 2, 3, 4]
     (fun i => rfl) (fun i => rfl) [[0, 1]] [] 2 [3] [[4]]
     (by decide) (by decide) (by decide) (by decide)⟩

theorem batch_size_zero_single_flush_witness :
    ([7, 8, 9] : List Nat) ≠ [] ∧
    (chunks 0 ([7, 8, 9] : List Nat) = [[7, 8, 9]] ∧
     execute_query poolAllOk 0 [7, 8, 9] = (Except.ok (), ⟨1, evBatch [7, 8, 9]⟩, []) ∧
     ∀ (E : Type) (worker : List Nat → Except E Unit),
       (execute_batch 0 worker [7, 8, 9]).1 = [[7, 8, 9]]) :=
  ⟨by decide,
   batch_size_zero_single_flush poolAllOk [7, 8, 9] (by decide)
     (fun i => rfl) (fun i => rfl) (by decide)⟩

/-- Events on the single transaction handle of a `TransactionRepository`
strategy: `beginTx` is `pool.begin()`, `act n` is the n-th action (0-based)
being run against the handle, `commit` is a successful commit, `rollback` is
the transaction reaching its rolled-back terminal state (explicit rollback
call or a failed commit attempt). -/
inductive TxEv where
  | beginTx
  | act (n : Nat)
  | commit
  | rollback
deriving DecidableEq

/-- Errors surfaced by a strategy whose caller-chosen error type `E` is
`From<sqlx::Error>`: `db` is a store error converted through `E::from` (a
failed begin, commit or rollback), `poolClosed` is
`E::from(Error::PoolClosed)`, returned by `transaction_concurrent` when
`Arc::into_inner` cannot reclaim sole ownership of the shared handle, and
`user e` is an action's own error, returned as-is. -/
inductive TxError (E : Type) where
  | db
  | poolClosed
  | user (e : E)
deriving DecidableEq

variable {E R : Type}

/-- The error of a failed action result, `none` for a successful one. -/
def exceptError : Except E R → Option E
  | Except.ok _ => none
  | Except.error e => some e

/-- `TransactionRepository::with_transaction`: begin; run the callback, which
returns its result together with the handle; commit on `Ok` and rollback on
`Err`; a rollback failure is surfaced (converted via `E::from`) in place of
the callback's error.  The callback is modelled by its result. -/
def with_transaction (beginOk commitOk rollbackOk : Bool) (callback : Except E R) :
    Except (TxError E) R × List TxEv :=
  if beginOk then
    match callback with
    | Except.ok v =>
        if commitOk then (Except.ok v, [TxEv.beginTx, TxEv.commit])
        else (Except.error TxError.db, [TxEv.beginTx, TxEv.rollback])
    | Except.error e =>
        if rollbackOk then (Except.error (TxError.user e), [TxEv.beginTx, TxEv.rollback])
        else (Except.error TxError.db, [TxEv.beginTx, TxEv.rollback])
  else (Except.error TxError.db, [])

/-- The `for action in actions` loop of `transaction_sequential`: the handle
is threaded through each action in order (`act n` in the trace); the first
failing action triggers an immediate rollback whose own result is discarded
(`let _ = tx.rollback()`), returning that action's error; after the loop the
transaction is committed and the collected results returned. -/
def transaction_sequential_go (commitOk : Bool) :
    List (Except E R) → Nat → List R → List TxEv → Except (TxError E) (List R) × List TxEv
  | [], _, results, tr =>
      if commitOk then (Except.ok results, tr ++ [TxEv.commit])
      else (Except.error TxError.db, tr ++ [TxEv.rollback])
  | Except.ok v :: as, n, results, tr =>
      transaction_sequential_go commitOk as (n + 1) (results ++ [v]) (tr ++ [TxEv.act n])
  | Except.error e :: _, n, _, tr =>
      (Except.error (TxError.user e), tr ++ [TxEv.act n, TxEv.rollback])

/-- `TransactionRepository::transaction_sequential`: begin once, then run the
fail-fast loop.  Each action is modelled by its result. -/
def transaction_sequential (beginOk commitOk : Bool) (actions : List (Except E R)) :
    Except (TxError E) (List R) × List TxEv :=
  if beginOk then transaction_sequential_go commitOk actions 0 [] [TxEv.beginTx]
  else (Except.error TxError.db, [])

/-- The `for action in actions` loop of `try_transaction`: every action runs
against the one handle in order regardless of earlier failures, successes
pushed onto `results` and failures onto `errors`. -/
def try_transaction_go :
    List (Except E R) → Nat → List R → List E → List TxEv → List R × List E × List TxEv
  | [], _, results, errors, tr => (results, errors, tr)
  | Except.ok v :: as, n, results, errors, tr =>
      try_transaction_go as (n + 1) (results ++ [v]) errors (tr ++ [TxEv.act n])
  | Except.error e :: as, n, results, errors, tr =>
      try_transaction_go as (n + 1) results (errors ++ [e]) (tr ++ [TxEv.act n])

/-- `TransactionRepository::try_transaction`: begin once, run every action,
commit iff the error list is empty (returning all results in order),
otherwise roll back (discarding the rollback result) and return the full
error list. -/
def try_transaction (beginOk commitOk : Bool) (actions : List (Except E R)) :
    Except (List (TxError E)) (List R) × List TxEv :=
  if beginOk then
    let res := try_transaction_go actions 0 [] [] [TxEv.beginTx]
    if res.2.1.isEmpty then
      if commitOk then (Except.ok res.1, res.2.2 ++ [TxEv.commit])
      else (Except.error [TxError.db], res.2.2 ++ [TxEv.rollback])
    else (Except.error (res.2.1.map TxError.user), res.2.2 ++ [TxEv.rollback])
  else (Except.error [TxError.db], [])

instance {A B : Type} [DecidableEq A] [DecidableEq B] : DecidableEq (Except A B) := fun x y =>
  match x, y with
  | Except.ok a, Except.ok b =>
      if h : a = b then Decidable.isTrue (by rw [h])
      else Decidable.isFalse (fun hc => h (Except.ok.inj hc))
  | Except.ok a, Except.error b => Decidable.isFalse (fun hc => Except.noConfusion hc)
  | Except.error a, Except.ok b => Decidable.isFalse (fun hc => Except.noConfusion hc)
  | Except.error a, Except.error b =>
      if h : a = b then Decidable.isTrue (by rw [h])
      else Decidable.isFalse (fun hc => h (Except.error.inj hc))

/-- An action passed to `transaction_concurrent`, modelled by its result and
by whether it still holds a clone of the `Arc` around the shared transaction
handle when the strategy tries to reclaim sole ownership at finalize time. -/
structure ConcAction (R E : Type) where
  res : Except E R
  retains : Bool
deriving DecidableEq

/-- `TransactionRepository::transaction_concurrent`: begin once, wrap the
handle in `Arc<Mutex<_>>`, launch every action concurrently and await them
all with `try_join_all`; then reclaim sole ownership via `Arc::into_inner`,
which fails iff some clone of the handle is still held, in which case
`E::from(Error::PoolClosed)` is returned with the transaction neither
committed nor rolled back; with sole ownership, commit if every action
succeeded, else roll back and return the failing action's error (a rollback
failure being surfaced through `?` in its place). -/
def transaction_concurrent (beginOk commitOk rollbackOk : Bool)
    (actions : List (ConcAction R E)) : Except (TxError E) (List R) × List TxEv :=
  if beginOk then
    match try_join_all (actions.map ConcAction.res) with
    | Except.ok values =>
        if actions.any ConcAction.retains then (Except.error TxError.poolClosed, [TxEv.beginTx])
        else if commitOk then (Except.ok values, [TxEv.beginTx, TxEv.commit])
        else (Except.error TxError.db, [TxEv.beginTx, TxEv.rollback])
    | Except.error e =>
        if actions.any ConcAction.retains then (Except.error TxError.poolClosed, [TxEv.beginTx])
        else if rollbackOk then (Except.error (TxError.user e), [TxEv.beginTx, TxEv.rollback])
        else (Except.error TxError.db, [TxEv.beginTx, TxEv.rollback])
  else (Except.error TxError.db, [])

/-- The `act` events emitted for `k` consecutive actions starting at index
`n`. -/
def actsFrom (n k : Nat) : List TxEv := (List.range k).map (fun i => TxEv.act (n + i))

theorem actsFrom_succ (n k : Nat) : actsFrom n (k + 1) = TxEv.act n :: actsFrom (n + 1) k := by
  rw [actsFrom, List.range_succ_eq_map, List.map_cons, List.map_map]
  congr 1
  exact List.map_congr_left (fun i hi => congrArg TxEv.act (by omega))

theorem actsFrom_zero_eq (k : Nat) : actsFrom 0 k = (List.range k).map TxEv.act := by
  rw [actsFrom]
  exact List.map_congr_left (fun i hi => by rw [Nat.zero_add])

theorem transaction_sequential_go_run (commitOk : Bool) :
    ∀ (as1 rest : List (Except E R)) (n : Nat) (results : List R) (tr : List TxEv),
    (∀ a ∈ as1, a.isOk = true) →
    transaction_sequential_go commitOk (as1 ++ rest) n results tr =
      transaction_sequential_go commitOk rest (n + as1.length)
        (results ++ as1.filterMap Except.toOption) (tr ++ actsFrom n as1.length) := by
  intro as1
  induction as1 with
  | nil => intro rest n results tr h; simp [actsFrom]
  | cons a as ih =>
    intro rest n results tr h
    cases a with
    | error e => exact absurd (h (Except.error e) (by simp)) (by simp [Except.isOk, Except.toBool])
    | ok v =>
      rw [List.cons_append, transaction_sequential_go,
        ih rest (n + 1) (results ++ [v]) (tr ++ [TxEv.act n]) (fun x hx => h x (by simp [hx]))]
      have hn : n + 1 + as.length = n + (as.length + 1) := by omega
      simp [hn, Except.toOption, actsFrom_succ]

theorem try_transaction_go_spec :
    ∀ (as : List (Except E R)) (n : Nat) (results : List R) (errors : List E) (tr : List TxEv),
    try_transaction_go as n results errors tr =
      (results ++ as.filterMap Except.toOption, errors ++ as.filterMap exceptError,
       tr ++ actsFrom n as.length) := by
  intro as
  induction as with
  | nil => intro n results errors tr; simp [try_transaction_go, actsFrom]
  | cons a as ih =>
    intro n results errors tr
    cases a with
    | ok v =>
      rw [try_transaction_go, ih]
      simp [Except.toOption, exceptError, actsFrom_succ]
    | error e =>
      rw [try_transaction_go, ih]
      simp [Except.toOption, exceptError, actsFrom_succ]

/-- Claim C3: `transaction_sequential` begins one transaction and threads the
single handle through the actions in list order; on the first failing action
it rolls back immediately and returns exactly that action's error, with the
actions after it never executed (no `act` event past the failing index); if
every action succeeds it commits exactly once and returns all the action
results in action order. -/
theorem transaction_sequential_fail_fast (actions : List (Except E R)) :
    (∀ (as1 : List (Except E R)) (e : E) (as2 : List (Except E R)),
      actions = as1 ++ Except.error e :: as2 →
      (∀ a ∈ as1, a.isOk = true) →
      transaction_sequential true true actions =
        (Except.error (TxError.user e),
         TxEv.beginTx :: (List.range (as1.length + 1)).map TxEv.act ++ [TxEv.rollback])) ∧
    ((∀ a ∈ actions, a.isOk = true) →
      transaction_sequential true true actions =
        (Except.ok (actions.filterMap Except.toOption),
         TxEv.beginTx :: (List.range actions.length).map TxEv.act ++ [TxEv.commit])) := by
  constructor
  · intro as1 e as2 hdec hok
    subst hdec
    rw [transaction_sequential, if_pos rfl]
    rw [transaction_sequential_go_run true as1 (Except.error e :: as2) 0 [] [TxEv.beginTx] hok]
    rw [transaction_sequential_go]
    simp [actsFrom_zero_eq, List.range_succ]
  · intro hok
    rw [transaction_sequential, if_pos rfl]
    have h := transaction_sequential_go_run true actions [] 0 [] [TxEv.beginTx] hok
    rw [List.append_nil] at h
    rw [h, transaction_sequential_go]
    simp [actsFrom_zero_eq]

theorem transaction_sequential_fail_fast_witness :
    ([Except.ok 1, Except.error 5, Except.ok 2] : List (Except Nat Nat)) =
      [Except.ok 1] ++ Except.error 5 :: [Except.ok 2] ∧
    transaction_sequential true true
        ([Except.ok 1, Except.error 5, Except.ok 2] : List (Except Nat Nat)) =
      (Except.error (TxError.user 5),
       TxEv.beginTx :: (List.range (([Except.ok (1 : Nat)] : List (Except Nat Nat)).length + 1)).map
         TxEv.act ++ [TxEv.rollback]) :=
  ⟨rfl,
   (transaction_sequential_fail_fast
       ([Except.ok 1, Except.error 5, Except.ok 2] : List (Except Nat Nat))).1
     [Except.ok 1] 5 [Except.ok 2] rfl (by decide)⟩

/-- Claim C4: `try_transaction` runs every action in order against the one
transaction regardless of earlier failures (the trace holds an `act` event
for every index), collects every success and every failure, commits exactly
when the error list is empty — returning all results in action order — and
otherwise rolls back and returns the complete error list, in action order. -/
theorem try_transaction_collects_all (actions : List (Except E R)) :
    try_transaction true true actions =
      ((if (actions.filterMap exceptError).isEmpty
        then Except.ok (actions.filterMap Except.toOption)
        else Except.error ((actions.filterMap exceptError).map TxError.user)),
       TxEv.beginTx :: (List.range actions.length).map TxEv.act ++
         [if (actions.filterMap exceptError).isEmpty then TxEv.commit else TxEv.rollback]) ∧
    (TxEv.commit ∈ (try_transaction true true actions).2 ↔
      actions.filterMap exceptError = []) := by
  have hmain : try_transaction true true actions =
      ((if (actions.filterMap exceptError).isEmpty
        then Except.ok (actions.filterMap Except.toOption)
        else Except.error ((actions.filterMap exceptError).map TxError.user)),
       TxEv.beginTx :: (List.range actions.length).map TxEv.act ++
         [if (actions.filterMap exceptError).isEmpty then TxEv.commit else TxEv.rollback]) := by
    rw [try_transaction, if_pos rfl]
    simp only [try_transaction_go_spec actions 0 [] [] [TxEv.beginTx], List.nil_append]
    by_cases he : (actions.filterMap exceptError).isEmpty
    · simp [he, actsFrom_zero_eq]
    · simp [he, actsFrom_zero_eq]
  refine ⟨hmain, ?_⟩
  rw [hmain]
  by_cases he : (actions.filterMap exceptError).isEmpty
  · simp only [List.isEmpty_iff] at he
    simp [he]
  · have he2 : actions.filterMap exceptError ≠ [] := by
      intro hq; rw [hq] at he; simp at he
    simp [he, he2]

theorem try_join_all_ok :
    ∀ (rs : List (Except E R)), (∀ r ∈ rs, r.isOk = true) →
    try_join_all rs = Except.ok (rs.filterMap Except.toOption) := by
  intro rs
  induction rs with
  | nil => intro h; simp [try_join_all]
  | cons r rs ih =>
    intro h
    cases r with
    | error e =>
      exact absurd (h (Except.error e) (by simp)) (by simp [Except.isOk, Except.toBool])
    | ok v =>
      rw [try_join_all]
      rw [ih (fun x hx => h x (by simp [hx]))]
      simp [Except.toOption]

theorem try_join_all_fail :
    ∀ (rs1 : List (Except E R)) (e : E) (rs2 : List (Except E R)),
    (∀ r ∈ rs1, r.isOk = true) →
    try_join_all (rs1 ++ Except.error e :: rs2) = Except.error e := by
  intro rs1
  induction rs1 with
  | nil => intro e rs2 h; simp [try_join_all]
  | cons r rs ih =>
    intro e rs2 h
    cases r with
    | error e2 =>
      exact absurd (h (Except.error e2) (by simp)) (by simp [Except.isOk, Except.toBool])
    | ok v =>
      rw [List.cons_append, try_join_all]
      rw [ih e rs2 (fun x hx => h x (by simp [hx]))]

/-- Claim C5: after awaiting all launched actions, `transaction_concurrent`
reclaims sole ownership of the shared handle.  If every action has dropped
its reference it commits when all actions succeeded and rolls back when any
action failed (returning that action's error); if some reference is still
outstanding it returns the fatal resource-state error
(`E::from(Error::PoolClosed)`) without committing — the trace shows neither a
commit nor a rollback — instead of the actions' own result. -/
theorem transaction_concurrent_reclaims (actions : List (ConcAction R E)) :
    (actions.any ConcAction.retains = true →
      transaction_concurrent true true true actions =
        (Except.error TxError.poolClosed, [TxEv.beginTx])) ∧
    (actions.any ConcAction.retains = false →
      (∀ a ∈ actions, a.res.isOk = true) →
      transaction_concurrent true true true actions =
        (Except.ok ((actions.map ConcAction.res).filterMap Except.toOption),
         [TxEv.beginTx, TxEv.commit])) ∧
    (actions.any ConcAction.retains = false →
      ∀ (as1 : List (ConcAction R E)) (e : E) (a : ConcAction R E) (as2 : List (ConcAction R E)),
      actions = as1 ++ a :: as2 → a.res = Except.error e →
      (∀ b ∈ as1, b.res.isOk = true) →
      transaction_concurrent true true true actions =
        (Except.error (TxError.user e), [TxEv.beginTx, TxEv.rollback])) := by
  refine ⟨?_, ?_, ?_⟩
  · intro hr
    rw [transaction_concurrent, if_pos rfl]
    cases htj : try_join_all (actions.map ConcAction.res) with
    | error e => simp [hr]
    | ok vs => simp [hr]
  · intro hr hok
    have htj := try_join_all_ok (actions.map ConcAction.res)
      (fun r hrm => by
        rcases List.mem_map.mp hrm with ⟨a, ha, hra⟩
        rw [← hra]; exact hok a ha)
    rw [transaction_concurrent, if_pos rfl, htj]
    simp [hr]
  · intro hr as1 e a as2 hdec hae hok
    have hmap : actions.map ConcAction.res =
        as1.map ConcAction.res ++ Except.error e :: as2.map ConcAction.res := by
      rw [hdec]
      simp [hae]
    have htj := try_join_all_fail (as1.map ConcAction.res) e (as2.map ConcAction.res)
      (fun r hrm => by
        rcases List.mem_map.mp hrm with ⟨b, hb, hrb⟩
        rw [← hrb]; exact hok b hb)
    rw [transaction_concurrent, if_pos rfl, hmap, htj]
    simp [hr]

theorem transaction_concurrent_reclaims_witness :
    ([⟨Except.ok 0, true⟩] : List (ConcAction Nat Nat)).any ConcAction.retains = true ∧
    transaction_concurrent true true true ([⟨Except.ok 0, true⟩] : List (ConcAction Nat Nat)) =
      (Except.error TxError.poolClosed, [TxEv.beginTx]) :=
  ⟨rfl, (transaction_concurrent_reclaims ([⟨Except.ok 0, true⟩] : List (ConcAction Nat Nat))).1 rfl⟩

/-- Number of transactions opened in a strategy trace. -/
def txOpens (tr : List TxEv) : Nat :=
  tr.countP (fun ev => match ev with | TxEv.beginTx => true | _ => false)

/-- Number of transactions resolved (committed or rolled back) in a strategy
trace. -/
def txCloses (tr : List TxEv) : Nat :=
  tr.countP (fun ev => match ev with | TxEv.commit => true | TxEv.rollback => true | _ => false)

/-- Every transaction opened during the call reached a commit or a rollback
before the call returned. -/
def txResolved (tr : List TxEv) : Prop := txOpens tr = txCloses tr

instance (tr : List TxEv) : Decidable (txResolved tr) := by
  rw [txResolved]; exact inferInstance

/-- Number of transactions opened in a `BatchOperator` trace. -/
def evOpens (tr : List (Ev T)) : Nat :=
  tr.countP (fun ev => match ev with | Ev.beginTx => true | _ => false)

/-- Number of transactions resolved (committed or rolled back) in a
`BatchOperator` trace. -/
def evCloses (tr : List (Ev T)) : Nat :=
  tr.countP (fun ev => match ev with | Ev.commit => true | Ev.rollback => true | _ => false)

/-- Every transaction opened during the call reached a commit or a rollback
before the call returned. -/
def evResolved (tr : List (Ev T)) : Prop := evOpens tr = evCloses tr

theorem runItems_trace (pool : PoolModel T) :
    ∀ (items : List T) (s : DbState T),
    ∃ pre : List T, ((runItems pool items s).2).trace = s.trace ++ pre.map Ev.exec := by
  intro items
  induction items with
  | nil => intro s; exact ⟨[], by simp [runItems]⟩
  | cons t ts ih =>
    intro s
    by_cases hq : pool.queryOk t = true
    · rcases ih (⟨s.txBegun, s.trace ++ [Ev.exec t]⟩ : DbState T) with ⟨pre, hpre⟩
      refine ⟨t :: pre, ?_⟩
      rw [runItems]
      simp only [hq, if_true]
      rw [hpre]
      simp
    · refine ⟨[t], ?_⟩
      rw [runItems]
      simp [hq]

theorem execute_query_internal_balance (pool : PoolModel T) (items : List T) (s : DbState T) :
    ∃ d, evOpens ((execute_query_internal pool items s).2).trace = evOpens s.trace + d ∧
         evCloses ((execute_query_internal pool items s).2).trace = evCloses s.trace + d := by
  rw [execute_query_internal]
  by_cases hemp : items.isEmpty
  · rw [if_pos hemp]; exact ⟨0, rfl, rfl⟩
  · rw [if_neg hemp]
    by_cases hb : pool.beginOk s.txBegun = true
    · rw [if_pos hb]
      have h2 := runItems_trace pool items (⟨s.txBegun + 1, s.trace ++ [Ev.beginTx]⟩ : DbState T)
      rcases hr : runItems pool items ⟨s.txBegun + 1, s.trace ++ [Ev.beginTx]⟩ with ⟨r, s2⟩
      rw [hr] at h2
      rcases h2 with ⟨pre, hpre⟩
      have hpre2 : s2.trace = (s.trace ++ [Ev.beginTx]) ++ pre.map Ev.exec := hpre
      cases r with
      | ok v =>
        by_cases hcm : pool.commitOk s.txBegun = true
        · refine ⟨1, ?_, ?_⟩ <;>
            simp [hcm, evOpens, evCloses, hpre2, List.countP_append, List.countP_map,
              Function.comp]
        · refine ⟨1, ?_, ?_⟩ <;>
            simp [hcm, evOpens, evCloses, hpre2, List.countP_append, List.countP_map,
              Function.comp]
      | error e =>
        refine ⟨1, ?_, ?_⟩ <;>
          simp [evOpens, evCloses, hpre2, List.countP_append, List.countP_map, Function.comp]
    · rw [if_neg hb]; exact ⟨0, rfl, rfl⟩

theorem processChunks_balance (pool : PoolModel T) :
    ∀ (cs : List (List T)) (s : DbState T),
    ∃ d, evOpens ((processChunks pool cs s).2.1).trace = evOpens s.trace + d ∧
         evCloses ((processChunks pool cs s).2.1).trace = evCloses s.trace + d := by
  intro cs
  induction cs with
  | nil => intro s; exact ⟨0, rfl, rfl⟩
  | cons c cs ih =>
    intro s
    have h1 := execute_query_internal_balance pool c s
    rcases hI : execute_query_internal pool c s with ⟨r, s2⟩
    rw [hI] at h1
    rcases h1 with ⟨d1, ho1, hc1⟩
    simp only at ho1 hc1
    cases r with
    | ok v =>
      rcases ih s2 with ⟨d2, ho2, hc2⟩
      refine ⟨d1 + d2, ?_, ?_⟩
      · rw [processChunks]
        simp only [hI]
        rw [ho2, ho1]
        omega
      · rw [processChunks]
        simp only [hI]
        rw [hc2, hc1]
        omega
    | error e =>
      refine ⟨d1, ?_, ?_⟩
      · rw [processChunks]
        simp only [hI]
        exact ho1
      · rw [processChunks]
        simp only [hI]
        exact hc1

theorem execute_query_balance (pool : PoolModel T) (N : Nat) (l : List T) :
    evResolved ((execute_query pool N l).2.1).trace := by
  rw [execute_query, execute_query_go_spec]
  rcases processChunks_balance pool (chunksGo N ([] : List T) l) (⟨0, []⟩ : DbState T)
    with ⟨d, ho, hc⟩
  show evOpens ((processChunks pool (chunksGo N ([] : List T) l) ⟨0, []⟩).2.1).trace =
    evCloses ((processChunks pool (chunksGo N ([] : List T) l) ⟨0, []⟩).2.1).trace
  rw [ho, hc]
  simp [evOpens, evCloses]

theorem countP_actsFrom (p : TxEv → Bool) (hp : ∀ m, p (TxEv.act m) = false) (n k : Nat) :
    List.countP p (actsFrom n k) = 0 := by
  rw [actsFrom, List.countP_map, List.countP_eq_zero]
  intro a ha
  simp [Function.comp, hp]

theorem txResolved_one_tx (n k : Nat) (final : TxEv)
    (hf : final = TxEv.commit ∨ final = TxEv.rollback) :
    txResolved (([TxEv.beginTx] ++ actsFrom n k) ++ [final]) := by
  rw [txResolved, txOpens, txCloses, List.countP_append, List.countP_append,
    List.countP_append, List.countP_append,
    countP_actsFrom _ (fun m => rfl) n k, countP_actsFrom _ (fun m => rfl) n k]
  rcases hf with hf | hf <;> subst hf <;> rfl

theorem with_transaction_resolves (bOk cOk rOk : Bool) (cb : Except E R) :
    txResolved (with_transaction bOk cOk rOk cb).2 := by
  cases bOk <;> cases cOk <;> cases rOk <;> cases cb <;>
    simp [with_transaction, txResolved, txOpens, txCloses]

theorem transaction_sequential_go_resolves (commitOk : Bool) :
    ∀ (as : List (Except E R)) (n : Nat) (results : List R) (tr : List TxEv),
    txOpens (transaction_sequential_go commitOk as n results tr).2 = txOpens tr ∧
    txCloses (transaction_sequential_go commitOk as n results tr).2 = txCloses tr + 1 := by
  intro as
  induction as with
  | nil =>
    intro n results tr
    by_cases hcm : commitOk = true <;>
      simp [transaction_sequential_go, hcm, txOpens, txCloses, List.countP_append]
  | cons a as ih =>
    intro n results tr
    cases a with
    | ok v =>
      rcases ih (n + 1) (results ++ [v]) (tr ++ [TxEv.act n]) with ⟨h1, h2⟩
      rw [transaction_sequential_go]
      refine ⟨?_, ?_⟩
      · rw [h1]; simp [txOpens, List.countP_append]
      · rw [h2]; simp [txCloses, List.countP_append]
    | error e =>
      rw [transaction_sequential_go]
      constructor <;> simp [txOpens, txCloses, List.countP_append]

theorem transaction_sequential_resolves (bOk cOk : Bool) (actions : List (Except E R)) :
    txResolved (transaction_sequential bOk cOk actions).2 := by
  by_cases hb : bOk = true
  · rw [transaction_sequential, if_pos hb]
    rcases transaction_sequential_go_resolves cOk actions 0 [] [TxEv.beginTx] with ⟨h1, h2⟩
    rw [txResolved, h1, h2]
    rfl
  · rw [transaction_sequential, if_neg hb]
    rfl

theorem try_transaction_resolves (bOk cOk : Bool) (actions : List (Except E R)) :
    txResolved (try_transaction bOk cOk actions).2 := by
  by_cases hb : bOk = true
  · rw [try_transaction, if_pos hb]
    simp only [try_transaction_go_spec actions 0 [] [] [TxEv.beginTx], List.nil_append]
    by_cases he : (actions.filterMap exceptError).isEmpty
    · rw [if_pos he]
      by_cases hcm : cOk = true
      · rw [if_pos hcm]
        exact txResolved_one_tx 0 actions.length TxEv.commit (Or.inl rfl)
      · rw [if_neg hcm]
        exact txResolved_one_tx 0 actions.length TxEv.rollback (Or.inr rfl)
    · rw [if_neg he]
      exact txResolved_one_tx 0 actions.length TxEv.rollback (Or.inr rfl)
  · rw [try_transaction, if_neg hb]
    rfl

theorem transaction_concurrent_resolves_when_released (bOk cOk rOk : Bool)
    (actions : List (ConcAction R E)) (hr : actions.any ConcAction.retains = false) :
    txResolved (transaction_concurrent bOk cOk rOk actions).2 := by
  by_cases hb : bOk = true
  · rw [transaction_concurrent, if_pos hb]
    cases htj : try_join_all (actions.map ConcAction.res) with
    | error e =>
      by_cases hro : rOk = true <;>
        simp [hr, hro, txResolved, txOpens, txCloses]
    | ok vs =>
      by_cases hcm : cOk = true <;>
        simp [hr, hcm, txResolved, txOpens, txCloses]
  · rw [transaction_concurrent, if_neg hb]
    rfl

theorem with_transaction_no_silent_drop (bOk cOk rOk : Bool) (cb : Except E R)
    (h : (with_transaction bOk cOk rOk cb).1.isOk = true) :
    bOk = true ∧ cOk = true ∧ cb.isOk = true := by
  cases bOk <;> cases cOk <;> cases rOk <;> cases cb <;>
    simp_all [with_transaction, Except.isOk, Except.toBool]

theorem transaction_sequential_go_no_silent_drop (commitOk : Bool) :
    ∀ (as : List (Except E R)) (n : Nat) (results : List R) (tr : List TxEv),
    (transaction_sequential_go commitOk as n results tr).1.isOk = true →
    commitOk = true ∧ ∀ a ∈ as, a.isOk = true := by
  intro as
  induction as with
  | nil =>
    intro n results tr h
    by_cases hcm : commitOk = true
    · exact ⟨hcm, by simp⟩
    · rw [transaction_sequential_go, if_neg hcm] at h
      simp [Except.isOk, Except.toBool] at h
  | cons a as ih =>
    intro n results tr h
    cases a with
    | ok v =>
      rw [transaction_sequential_go] at h
      rcases ih (n + 1) (results ++ [v]) (tr ++ [TxEv.act n]) h with ⟨h1, h2⟩
      refine ⟨h1, ?_⟩
      intro b hb
      rcases List.mem_cons.mp hb with hb | hb
      · rw [hb]; rfl
      · exact h2 b hb
    | error e =>
      rw [transaction_sequential_go] at h
      simp [Except.isOk, Except.toBool] at h

theorem transaction_sequential_no_silent_drop (bOk cOk : Bool) (actions : List (Except E R))
    (h : (transaction_sequential bOk cOk actions).1.isOk = true) :
    bOk = true ∧ cOk = true ∧ ∀ a ∈ actions, a.isOk = true := by
  by_cases hb : bOk = true
  · rw [transaction_sequential, if_pos hb] at h
    rcases transaction_sequential_go_no_silent_drop cOk actions 0 [] [TxEv.beginTx] h
      with ⟨h1, h2⟩
    exact ⟨hb, h1, h2⟩
  · rw [transaction_sequential, if_neg hb] at h
    simp [Except.isOk, Except.toBool] at h

theorem filterMap_exceptError_eq_nil :
    ∀ (as : List (Except E R)), as.filterMap exceptError = [] → ∀ a ∈ as, a.isOk = true := by
  intro as
  induction as with
  | nil => intro h a ha; simp at ha
  | cons a as ih =>
    intro h b hb
    cases a with
    | error e =>
      rw [List.filterMap_cons] at h
      simp [exceptError] at h
    | ok v =>
      rw [List.filterMap_cons] at h
      simp only [exceptError] at h
      rcases List.mem_cons.mp hb with hb | hb
      · rw [hb]; rfl
      · exact ih h b hb

theorem try_transaction_no_silent_drop (bOk cOk : Bool) (actions : List (Except E R))
    (h : (try_transaction bOk cOk actions).1.isOk = true) :
    bOk = true ∧ cOk = true ∧ ∀ a ∈ actions, a.isOk = true := by
  by_cases hb : bOk = true
  · rw [try_transaction, if_pos hb] at h
    simp only [try_transaction_go_spec actions 0 [] [] [TxEv.beginTx], List.nil_append] at h
    by_cases he : (actions.filterMap exceptError).isEmpty
    · by_cases hcm : cOk = true
      · exact ⟨hb, hcm, filterMap_exceptError_eq_nil actions (List.isEmpty_iff.mp he)⟩
      · rw [if_pos he, if_neg hcm] at h
        simp [Except.isOk, Except.toBool] at h
    · rw [if_neg he] at h
      simp [Except.isOk, Except.toBool] at h
  · rw [try_transaction, if_neg hb] at h
    simp [Except.isOk, Except.toBool] at h

theorem try_join_all_no_silent_drop :
    ∀ (rs : List (Except E R)), (try_join_all rs).isOk = true → ∀ r ∈ rs, r.isOk = true := by
  intro rs
  induction rs with
  | nil => intro h r hr; simp at hr
  | cons r rs ih =>
    intro h b hb
    cases r with
    | error e =>
      rw [try_join_all] at h
      simp [Except.isOk, Except.toBool] at h
    | ok v =>
      rw [try_join_all] at h
      cases htj : try_join_all rs with
      | ok vs =>
        rcases List.mem_cons.mp hb with hb | hb
        · rw [hb]; rfl
        · exact ih (by rw [htj]; rfl) b hb
      | error e2 =>
        rw [htj] at h
        simp [Except.isOk, Except.toBool] at h

theorem transaction_concurrent_no_silent_drop (bOk cOk rOk : Bool)
    (actions : List (ConcAction R E))
    (h : (transaction_concurrent bOk cOk rOk actions).1.isOk = true) :
    bOk = true ∧ cOk = true ∧ actions.any ConcAction.retains = false ∧
      ∀ a ∈ actions, a.res.isOk = true := by
  by_cases hb : bOk = true
  · rw [transaction_concurrent, if_pos hb] at h
    cases htj : try_join_all (actions.map ConcAction.res) with
    | error e =>
      rw [htj] at h
      by_cases hr : actions.any ConcAction.retains
      · simp [hr, Except.isOk, Except.toBool] at h
      · by_cases hro : rOk = true <;> simp [hr, hro, Except.isOk, Except.toBool] at h
    | ok vs =>
      rw [htj] at h
      by_cases hr : actions.any ConcAction.retains
      · simp [hr, Except.isOk, Except.toBool] at h
      · by_cases hcm : cOk = true
        · refine ⟨hb, hcm, by simpa using hr, ?_⟩
          intro a ha
          exact try_join_all_no_silent_drop (actions.map ConcAction.res)
            (by rw [htj]; rfl) a.res (List.mem_map.mpr ⟨a, ha, rfl⟩)
        · simp [hr, hcm, Except.isOk, Except.toBool] at h
  · rw [transaction_concurrent, if_neg hb] at h
    simp [Except.isOk, Except.toBool] at h

theorem runItems_no_silent_drop (pool : PoolModel T) :
    ∀ (items : List T) (s : DbState T), (runItems pool items s).1 = Except.ok () →
    ∀ t ∈ items, pool.queryOk t = true := by
  intro items
  induction items with
  | nil => intro s h t ht; simp at ht
  | cons t ts ih =>
    intro s h u hu
    simp only [runItems] at h
    by_cases hq : pool.queryOk t = true
    · rw [if_pos hq] at h
      rcases List.mem_cons.mp hu with hu | hu
      · rw [hu]; exact hq
      · exact ih _ h u hu
    · rw [if_neg hq] at h
      simp at h

theorem execute_query_internal_no_silent_drop (pool : PoolModel T) (items : List T)
    (s : DbState T) (h : (execute_query_internal pool items s).1 = Except.ok ()) :
    ∀ t ∈ items, pool.queryOk t = true := by
  rw [execute_query_internal] at h
  by_cases hemp : items.isEmpty
  · intro t ht
    rw [List.isEmpty_iff.mp hemp] at ht
    simp at ht
  · rw [if_neg hemp] at h
    by_cases hb : pool.beginOk s.txBegun = true
    · rw [if_pos hb] at h
      rcases hr : runItems pool items ⟨s.txBegun + 1, s.trace ++ [Ev.beginTx]⟩ with ⟨r, s2⟩
      rw [hr] at h
      cases r with
      | ok v => exact runItems_no_silent_drop pool items _ (by rw [hr])
      | error e => simp at h
    · rw [if_neg hb] at h
      simp at h

theorem processChunks_no_silent_drop (pool : PoolModel T) :
    ∀ (cs : List (List T)) (s : DbState T), (processChunks pool cs s).1 = Except.ok () →
    ∀ c ∈ cs, ∀ t ∈ c, pool.queryOk t = true := by
  intro cs
  induction cs with
  | nil => intro s h c hc; simp at hc
  | cons c cs ih =>
    intro s h d hd
    rw [processChunks] at h
    rcases hI : execute_query_internal pool c s with ⟨r, s2⟩
    rw [hI] at h
    cases r with
    | ok v =>
      rcases List.mem_cons.mp hd with hd | hd
      · rw [hd]
        exact execute_query_internal_no_silent_drop pool c s (by rw [hI])
      · exact ih s2 h d hd
    | error e => simp at h

theorem execute_query_no_silent_drop (pool : PoolModel T) (N : Nat) (l : List T)
    (h : (execute_query pool N l).1 = Except.ok ()) :
    ∀ t ∈ l, pool.queryOk t = true := by
  intro t ht
  rw [execute_query, execute_query_go_spec] at h
  have h2 := processChunks_no_silent_drop pool (chunksGo N ([] : List T) l)
    (⟨0, []⟩ : DbState T) (by exact h)
  have hfl : (chunksGo N ([] : List T) l).flatten = l := by
    simpa using chunksGo_flatten N l []
  rw [← hfl] at ht
  rcases List.mem_flatten.mp ht with ⟨c, hc, htc⟩
  exact h2 c hc t htc

/-- Claim C6 fails as stated: `transaction_concurrent` has a failure path
that returns its error while its open transaction is left unresolved.  With
one successful action that still holds a clone of the shared handle at
finalize time, the call returns the resource-state error and the trace holds
a `beginTx` but neither a commit nor a rollback. -/
theorem transaction_failure_paths_resolve_counterexample :
    (transaction_concurrent true true true
        ([⟨Except.ok 0, true⟩] : List (ConcAction Nat Nat))).1 =
      Except.error TxError.poolClosed ∧
    ¬ txResolved (transaction_concurrent true true true
        ([⟨Except.ok 0, true⟩] : List (ConcAction Nat Nat))).2 := by
  decide

/-- Claim C6 (amended): `with_transaction`, `transaction_sequential`,
`try_transaction` and the Batch Operator's per-item mode resolve — commit or
roll back — every transaction they opened before returning, on every path
and in particular on every failure path; `transaction_concurrent` does so
too whenever every action has dropped its reference to the shared handle at
finalize time, but on its reclaim-failure path (a reference still
outstanding) it returns the fatal resource-state error with the open
transaction left to the outstanding holder, unresolved at return time.  And
no failure is ever silently dropped: every strategy — `transaction_concurrent`
and its reclaim-failure path included — returns success only when its begin,
its commit, every guarded action, and (in the per-item batch mode) every
per-item query succeeded, so any failure forces an error return to the
caller. -/
theorem transaction_failure_paths_resolve (E R T : Type) :
    (∀ (bOk cOk rOk : Bool) (cb : Except E R),
      txResolved (with_transaction bOk cOk rOk cb).2) ∧
    (∀ (bOk cOk : Bool) (actions : List (Except E R)),
      txResolved (transaction_sequential bOk cOk actions).2) ∧
    (∀ (bOk cOk : Bool) (actions : List (Except E R)),
      txResolved (try_transaction bOk cOk actions).2) ∧
    (∀ (pool : PoolModel T) (N : Nat) (l : List T),
      evResolved ((execute_query pool N l).2.1).trace) ∧
    (∀ (bOk cOk rOk : Bool) (actions : List (ConcAction R E)),
      actions.any ConcAction.retains = false →
      txResolved (transaction_concurrent bOk cOk rOk actions).2) ∧
    (∀ (bOk cOk rOk : Bool) (cb : Except E R),
      (with_transaction bOk cOk rOk cb).1.isOk = true →
      bOk = true ∧ cOk = true ∧ cb.isOk = true) ∧
    (∀ (bOk cOk : Bool) (actions : List (Except E R)),
      (transaction_sequential bOk cOk actions).1.isOk = true →
      bOk = true ∧ cOk = true ∧ ∀ a ∈ actions, a.isOk = true) ∧
    (∀ (bOk cOk : Bool) (actions : List (Except E R)),
      (try_transaction bOk cOk actions).1.isOk = true →
      bOk = true ∧ cOk = true ∧ ∀ a ∈ actions, a.isOk = true) ∧
    (∀ (pool : PoolModel T) (N : Nat) (l : List T),
      (execute_query pool N l).1 = Except.ok () → ∀ t ∈ l, pool.queryOk t = true) ∧
    (∀ (bOk cOk rOk : Bool) (actions : List (ConcAction R E)),
      (transaction_concurrent bOk cOk rOk actions).1.isOk = true →
      bOk = true ∧ cOk = true ∧ actions.any ConcAction.retains = false ∧
        ∀ a ∈ actions, a.res.isOk = true) :=
  ⟨fun bOk cOk rOk cb => with_transaction_resolves bOk cOk rOk cb,
   fun bOk cOk actions => transaction_sequential_resolves bOk cOk actions,
   fun bOk cOk actions => try_transaction_resolves bOk cOk actions,
   fun pool N l => execute_query_balance pool N l,
   fun bOk cOk rOk actions hr =>
     transaction_concurrent_resolves_when_released bOk cOk rOk actions hr,
   fun bOk cOk rOk cb h => with_transaction_no_silent_drop bOk cOk rOk cb h,
   fun bOk cOk actions h => transaction_sequential_no_silent_drop bOk cOk actions h,
   fun bOk cOk actions h => try_transaction_no_silent_drop bOk cOk actions h,
   fun pool N l h => execute_query_no_silent_drop pool N l h,
   fun bOk cOk rOk actions h => transaction_concurrent_no_silent_drop bOk cOk rOk actions h⟩

theorem transaction_failure_paths_resolve_witness :
    (([⟨Except.ok 0, false⟩] : List (ConcAction Nat Nat)).any ConcAction.retains = false ∧
     (transaction_sequential true true ([Except.ok 1] : List (Except Nat Nat))).1.isOk = true) ∧
    txResolved (transaction_concurrent true false true
      ([⟨Except.ok 0, false⟩] : List (ConcAction Nat Nat))).2 ∧
    (true = true ∧ true = true ∧
     ∀ a ∈ ([Except.ok 1] : List (Except Nat Nat)), a.isOk = true) :=
  ⟨⟨rfl, by decide⟩,
   (transaction_failure_paths_resolve Nat Nat Nat).2.2.2.2.1 true false true
     ([⟨Except.ok 0, false⟩] : List (ConcAction Nat Nat)) rfl,
   (transaction_failure_paths_resolve Nat Nat Nat).2.2.2.2.2.2.1 true true
     ([Except.ok 1] : List (Except Nat Nat)) (by decide)⟩

variable {M I : Type}

/-- The batched operations `save_batch`'s per-chunk worker can launch. -/
inductive SaveOp (M : Type) where
  | updateBatch (models : List M)
  | insertBatch (models : List M)
deriving DecidableEq

/-- The per-chunk worker of `SaveRepository::save_batch`: split the chunk by
`model.get_id().is_some()` into the update and insert sub-collections, then
launch both batched operations concurrently (`futures::try_join!`) when both
are non-empty, only the non-empty one when the other is empty, and nothing
when both are empty.  The result lists the operations launched, in the order
they appear in the `try_join!`. -/
def save_batch_worker (getId : M → Option I) (batch : List M) : List (SaveOp M) :=
  let p := batch.partition (fun m => (getId m).isSome)
  match p.1.isEmpty, p.2.isEmpty with
  | false, false => [SaveOp.updateBatch p.1, SaveOp.insertBatch p.2]
  | false, true => [SaveOp.updateBatch p.1]
  | true, false => [SaveOp.insertBatch p.2]
  | true, true => []

/-- `SaveRepository::save_batch::<N>`: feed the models through
`BatchOperator::execute_batch` — the same chunking embedded as `chunks` —
handing each chunk to the partitioning worker. -/
def save_batch (getId : M → Option I) (N : Nat) (models : List M) :
    List (List (SaveOp M)) :=
  (chunks N models).map (save_batch_worker getId)

/-- Claim C7: each chunk handed to `save_batch`'s worker is partitioned by
identity: the update sub-collection holds exactly the chunk's models with an
identity present, the insert sub-collection exactly those with it absent, and
their union as a multiset is the chunk; with both sub-collections non-empty
the worker launches exactly the two batched operations concurrently, with
only one non-empty just that one, and with both empty none. -/
theorem save_batch_worker_partitions (getId : M → Option I) (batch : List M) :
    (save_batch_worker getId batch =
      (if (batch.filter (fun m => (getId m).isSome)).isEmpty then
         (if (batch.filter (fun m => (getId m).isNone)).isEmpty then []
          else [SaveOp.insertBatch (batch.filter (fun m => (getId m).isNone))])
       else
         (if (batch.filter (fun m => (getId m).isNone)).isEmpty then
            [SaveOp.updateBatch (batch.filter (fun m => (getId m).isSome))]
          else [SaveOp.updateBatch (batch.filter (fun m => (getId m).isSome)),
                SaveOp.insertBatch (batch.filter (fun m => (getId m).isNone))]))) ∧
    List.Perm (batch.filter (fun m => (getId m).isSome) ++
      batch.filter (fun m => (getId m).isNone)) batch ∧
    (∀ m ∈ batch.filter (fun m => (getId m).isNone), getId m = none) ∧
    (∀ m ∈ batch.filter (fun m => (getId m).isSome), ∃ x, getId m = some x) := by
  have hfil : batch.filter (fun m => !(getId m).isSome) =
      batch.filter (fun m => (getId m).isNone) := by
    apply List.filter_congr
    intro m hm
    cases getId m <;> rfl
  refine ⟨?_, ?_, ?_, ?_⟩
  · by_cases h1 : (batch.filter (fun m => (getId m).isSome)).isEmpty <;>
      by_cases h2 : (batch.filter (fun m => (getId m).isNone)).isEmpty <;>
        simp [save_batch_worker, List.partition_eq_filter_filter, Function.comp_def,
          h1, h2]
  · rw [← hfil]
    exact List.filter_append_perm (fun m => (getId m).isSome) batch
  · intro m hm
    exact Option.isNone_iff_eq_none.mp (List.mem_filter.mp hm).2
  · intro m hm
    exact Option.isSome_iff_exists.mp (List.mem_filter.mp hm).2

theorem save_batch_worker_partitions_witness :
    save_batch_worker (fun m => m) ([none, some 5, none] : List (Option Nat)) =
      [SaveOp.updateBatch [some 5], SaveOp.insertBatch [none, none]] ∧
    List.Perm ([some 5] ++ [none, none]) ([none, some 5, none] : List (Option Nat)) := by
  have h := save_batch_worker_partitions (fun m => (m : Option Nat)) [none, some 5, none]
  refine ⟨?_, ?_⟩
  · rw [h.1]
    decide
  · have h2 := h.2.1
    simpa using h2

/-- Insert-or-update routing outcome of `save`. -/
inductive SavePath where
  | viaInsert
  | viaUpdate
deriving DecidableEq

/-- `SaveRepository::save_with_executor`: call the insert path
(`insert_with_executor`) when `model.get_id()` is `None`, else the update
path (`update_with_executor`), against the supplied executor.  The embedding
records which path is invoked. -/
def save_with_executor (getId : M → Option I) (model : M) : SavePath :=
  if (getId model).isNone then SavePath.viaInsert else SavePath.viaUpdate

/-- `SaveRepository::save`: `save_with_executor` run against the repository
pool. -/
def save (getId : M → Option I) (model : M) : SavePath :=
  save_with_executor getId model

/-- Claim C8: `save` and `save_with_executor` invoke the insert path exactly
when the model's identity is `None` and the update path exactly when it is
`Some x`, never the other. -/
theorem save_routes_on_identity (getId : M → Option I) (model : M) :
    (save_with_executor getId model = SavePath.viaInsert ↔ getId model = none) ∧
    (save_with_executor getId model = SavePath.viaUpdate ↔ ∃ x, getId model = some x) ∧
    (save getId model = SavePath.viaInsert ↔ getId model = none) ∧
    (save getId model = SavePath.viaUpdate ↔ ∃ x, getId model = some x) := by
  cases hg : getId model <;>
    simp [save, save_with_executor, hg]

theorem save_routes_on_identity_witness :
    (save_with_executor (fun m => m) (none : Option Nat) = SavePath.viaInsert ↔
      (none : Option Nat) = none) ∧
    (save_with_executor (fun m => m) (none : Option Nat) = SavePath.viaUpdate ↔
      ∃ x, (none : Option Nat) = some x) ∧
    (save (fun m => m) (none : Option Nat) = SavePath.viaInsert ↔
      (none : Option Nat) = none) ∧
    (save (fun m => m) (none : Option Nat) = SavePath.viaUpdate ↔
      ∃ x, (none : Option Nat) = some x) :=
  save_routes_on_identity (fun m => m) (none : Option Nat)

/-- Errors of the embedded delete-by-filter path: `Error::Repository` with
its message (the filter-rejected kind) or a store error from executing the
delete statement. -/
inductive DeleteError where
  | repository (message : String)
  | store
deriving DecidableEq

/-- Observable query activity of `delete_by_filter_with_executor`: the one
DELETE statement built from the filter being executed against the store. -/
inductive DeleteEv where
  | deleteByFilterQuery
deriving DecidableEq

/-- `DeleteRepository::delete_by_filter_with_executor`: reject a filter whose
`should_apply_filter()` is `false` with `Error::Repository` before building
or executing any statement; otherwise build the delete query and execute it
against the supplied executor.  The filter is modelled by its
`should_apply_filter()` answer and the store by whether execution succeeds. -/
def delete_by_filter_with_executor (execOk shouldApplyFilter : Bool) :
    Except DeleteError Unit × List DeleteEv :=
  if !shouldApplyFilter then
    (Except.error (DeleteError.repository "Can not Delete from table with a empty filter."), [])
  else if execOk then (Except.ok (), [DeleteEv.deleteByFilterQuery])
  else (Except.error DeleteError.store, [DeleteEv.deleteByFilterQuery])

/-- `DeleteRepository::delete_by_filter`: the same call with the repository
pool as the executor. -/
def delete_by_filter (execOk shouldApplyFilter : Bool) :
    Except DeleteError Unit × List DeleteEv :=
  delete_by_filter_with_executor execOk shouldApplyFilter

/-- Claim C9: a filter whose `should_apply_filter()` reports `false` makes
`delete_by_filter` and `delete_by_filter_with_executor` return the
filter-rejected `Error::Repository` error having issued zero queries, and
the delete statement is only ever built and executed when
`should_apply_filter()` reports `true`. -/
theorem delete_by_filter_rejects_empty_filter (execOk : Bool) :
    (delete_by_filter_with_executor execOk false =
      (Except.error (DeleteError.repository "Can not Delete from table with a empty filter."),
       ([] : List DeleteEv)) ∧
     delete_by_filter execOk false =
      (Except.error (DeleteError.repository "Can not Delete from table with a empty filter."),
       ([] : List DeleteEv))) ∧
    (∀ sa : Bool, (delete_by_filter_with_executor execOk sa).2 ≠ [] → sa = true) := by
  refine ⟨⟨rfl, rfl⟩, ?_⟩
  intro sa h
  cases sa with
  | false => exact absurd rfl h
  | true => rfl

theorem delete_by_filter_rejects_empty_filter_witness :
    (delete_by_filter_with_executor true true).2 ≠ [] ∧ true = true :=
  ⟨by decide, (delete_by_filter_rejects_empty_filter true).2 true (by decide)⟩

end SqlxUtils
